import Mathlib

/-!
Verification development for the civic-tech-taxonomy import pipeline
(`src/import.js`).  The adapters (`importLaddr`, `importMatchmaker`,
`importDemocracyLab`) are embedded as pure Lean functions over an explicit
document model; JavaScript objects are modelled as association lists whose
update operation (`assocSet`) mirrors JS object-key assignment (replace in
place, else append), and JS string/regex operations are modelled
character-by-character on `List Char`.
-/

namespace CivicTaxonomy

/-- A value of a normalized tag document: a string, the explicit-absence
marker (JS `null`, dropped by the serializer), or a nested table. -/
inductive Value where
  | str (s : String)
  | absent
  | table (entries : List (String × Value))

/-- A normalized document: an ordered association list of fields, modelling a
JS object (keys unique by construction of the operations below). -/
abbrev Doc := List (String × Value)

/-- Boolean test for the absence marker. -/
def Value.isAbsent : Value → Bool
  | .absent => true
  | _ => false

/-- Association-list lookup (first matching key), modelling JS property read. -/
def assocGet {α β : Type} [DecidableEq α] (m : List (α × β)) (k : α) : Option β :=
  match m with
  | [] => none
  | e :: rest => if e.1 = k then some e.2 else assocGet rest k

/-- Association-list update modelling JS object-key assignment: an existing
key keeps its position and gets the new value, a fresh key is appended. -/
def assocSet {α β : Type} [DecidableEq α] (m : List (α × β)) (k : α) (v : β) : List (α × β) :=
  if m.any (fun e => decide (e.1 = k)) then m.map (fun e => if e.1 = k then (k, v) else e)
  else m ++ [(k, v)]

/-- Key order used by `sort-keys`: compare entries by field name. -/
def keyLe (a b : String × Value) : Prop := a.1 ≤ b.1

instance : DecidableRel keyLe := fun a b => inferInstanceAs (Decidable (a.1 ≤ b.1))

instance : IsTotal (String × Value) keyLe := ⟨fun a b => le_total a.1 b.1⟩

instance : IsTrans (String × Value) keyLe := ⟨fun _ _ _ h1 h2 => le_trans h1 h2⟩

/-- Strict key order (used to compare sorted duplicate-free lists). -/
def keyLt (a b : String × Value) : Prop := a.1 < b.1

instance : IsAntisymm (String × Value) keyLt :=
  ⟨fun _ _ h1 h2 => absurd h2 (lt_asymm h1)⟩

mutual

/-- Modelled from the spec: the canonical serializer drops any field whose
value is the explicit-absence marker, at every nesting level (the behaviour
of `@iarna/toml`'s `stringify` on `null` members, an external dependency). -/
def stripValue : Value → Value
  | .str s => .str s
  | .absent => .absent
  | .table d => .table (stripEntries d)

/-- Entry-list part of the absence-marker stripping pass. -/
def stripEntries : List (String × Value) → List (String × Value)
  | [] => []
  | (k, v) :: rest =>
      if v.isAbsent then stripEntries rest else (k, stripValue v) :: stripEntries rest

end

mutual

/-- `sort-keys` with `deep: true`: sort mapping keys lexicographically at
every nesting level (as called on every document in `src/import.js`). -/
def sortValue : Value → Value
  | .str s => .str s
  | .absent => .absent
  | .table d => .table (List.insertionSort keyLe (sortEntries d))

/-- Apply the deep key sort to every value of an entry list. -/
def sortEntries : List (String × Value) → List (String × Value)
  | [] => []
  | (k, v) :: rest => (k, sortValue v) :: sortEntries rest

end

/-- Deep key sort of a document. -/
def sortDoc (d : Doc) : Doc := List.insertionSort keyLe (sortEntries d)

mutual

/-- Modelled from the spec: deterministic structured-text emission of one
value (TOML-style, an external dependency; quoting simplified). -/
def renderValue : Value → String
  | .str s => "\x22" ++ s ++ "\x22"
  | .absent => ""
  | .table d => "\x7b " ++ renderEntries d ++ " \x7d"

/-- Emission of an entry list, one `key = value` line per field. -/
def renderEntries : List (String × Value) → String
  | [] => ""
  | (k, v) :: rest => k ++ " = " ++ renderValue v ++ "\n" ++ renderEntries rest

end

/-- Modelled from the spec: the canonical serializer
(`TOML.stringify(sortKeys(doc, { deep: true }))` in `src/import.js`):
absence-marker fields are dropped, keys are sorted at every nesting level,
and the result is emitted deterministically. -/
def serialize (d : Doc) : String := renderEntries (sortDoc (stripEntries d))

/-- Remove the first entry with the given key (helper used to state that a
field is omitted from serialized output). -/
def eraseField (k : String) : Doc → Doc
  | [] => []
  | e :: rest => if e.1 = k then rest else e :: eraseField k rest

/-! ### JS string and regex primitives -/

/-- JS `\s` on the ASCII range (the characters relevant to this data). -/
def isJsSpace (c : Char) : Bool :=
  c = ' ' || c = '\t' || c = '\n' || c = '\r' || c = '\x0b' || c = '\x0c'

/-- Does `/\s*\(.*$/` match the whole remaining text (anchored here)?  True
iff some leading JS whitespace is followed by `(` and the rest of the text
contains no newline (JS `.` does not match `\n` and `$` is end-of-string). -/
def parenTailMatch : List Char → Bool
  | [] => false
  | c :: rest =>
      if c = '(' then rest.all (fun x => x ≠ '\n')
      else if isJsSpace c then parenTailMatch rest
      else false

/-- JS `str.replace(/\s*\(.*$/, '')`: delete from the leftmost position where
the pattern matches through the end. -/
def stripParenChars : List Char → List Char
  | [] => []
  | c :: rest => if parenTailMatch (c :: rest) then [] else c :: stripParenChars rest

/-- JS `str.replace(/\s+/, r)` (no `g` flag): replace only the first maximal
whitespace run with `r`, leaving the rest of the string untouched. -/
def replaceFirstWsChars (r : List Char) : List Char → List Char
  | [] => []
  | c :: rest =>
      if isJsSpace c then r ++ rest.dropWhile isJsSpace
      else c :: replaceFirstWsChars r rest

mutual

/-- Replacement of every maximal whitespace run (the spec's reading of the
header/category normalization); compared against `replaceFirstWsChars`. -/
def replaceAllWsChars (r : List Char) : List Char → List Char
  | [] => []
  | c :: rest =>
      if isJsSpace c then r ++ replaceAllWsAfterRun r rest
      else c :: replaceAllWsChars r rest

/-- State of `replaceAllWsChars` inside a whitespace run already replaced. -/
def replaceAllWsAfterRun (r : List Char) : List Char → List Char
  | [] => []
  | c :: rest =>
      if isJsSpace c then replaceAllWsAfterRun r rest
      else c :: replaceAllWsChars r rest

end

mutual

/-- Number of maximal whitespace runs in a character list. -/
def wsRunCount : List Char → Nat
  | [] => 0
  | c :: rest => if isJsSpace c then 1 + wsRunCountInRun rest else wsRunCount rest

/-- State of `wsRunCount` inside a whitespace run already counted. -/
def wsRunCountInRun : List Char → Nat
  | [] => 0
  | c :: rest => if isJsSpace c then wsRunCountInRun rest else wsRunCount rest

end

/-- JS `str.replace(pat, rep)` for a literal pattern without `g`: replace the
leftmost occurrence of `pat` only. -/
def replaceFirstSub (pat rep : List Char) : List Char → List Char
  | [] => []
  | c :: rest =>
      if pat.isPrefixOf (c :: rest) then rep ++ (c :: rest).drop pat.length
      else c :: replaceFirstSub pat rep rest

/-- JS `toLowerCase` (locale-independent; ASCII-adequate for this data). -/
def lowerChars (cs : List Char) : List Char := cs.map Char.toLower

/-! ### CSV-Categorized adapter (`importDemocracyLab`) -/

/-- Column-header normalization of `importDemocracyLab`:
`.replace(/\s*\(.*$/, '').replace(/\s+/, '_').toLowerCase()`. -/
def headerFieldName (h : String) : String :=
  ⟨lowerChars (replaceFirstWsChars ['_'] (stripParenChars h.data))⟩

/-- The spec's wording of header normalization: strip the parenthetical tail,
collapse every internal whitespace run to one underscore, lowercase. -/
def specHeaderFieldName (h : String) : String :=
  ⟨lowerChars (replaceAllWsChars ['_'] (stripParenChars h.data))⟩

/-- Category path-segment normalization of `importDemocracyLab`:
`.replace(/\s+/, '-').replace(/\(s\)/, 's').toLowerCase()`. -/
def categorySegment (c : String) : String :=
  ⟨lowerChars (replaceFirstSub ['(', 's', ')'] ['s'] (replaceFirstWsChars ['-'] c.data))⟩

/-- The spec's wording of category normalization, with every whitespace run
replaced by a hyphen. -/
def specCategorySegment (c : String) : String :=
  ⟨lowerChars (replaceFirstSub ['(', 's', ')'] ['s'] (replaceAllWsChars ['-'] c.data))⟩

/-- `tagData` built from one CSV row: each column is stored under its
normalized header name (later columns overwrite, as JS assignment does). -/
def dlTagData (row : List (String × String)) : Doc :=
  row.foldl (fun d e => assocSet d (headerFieldName e.1) (Value.str e.2)) []

/-- JS `x || null` on an optional string field: blank or missing becomes the
absence marker. -/
def jsOrAbsent : Option Value → Value
  | some (.str s) => if s = "" then .absent else .str s
  | _ => .absent

/-- The document serialized for one CSV row: the row's fields with
`category` and `canonical_name` cleared and the optional `parent`,
`subcategory`, `caption` fields defaulted to the absence marker when blank
(field order follows the object literal in `importDemocracyLab`). -/
def dlDoc (row : List (String × String)) : Doc :=
  let td := dlTagData row
  assocSet (assocSet (assocSet (assocSet (assocSet td
    "category" .absent)
    "canonical_name" .absent)
    "parent" (jsOrAbsent (assocGet td "parent")))
    "subcategory" (jsOrAbsent (assocGet td "subcategory")))
    "caption" (jsOrAbsent (assocGet td "caption"))

/-- JS string coercion of an optional document value inside a template
literal (`undefined` renders as the text "undefined"; rows fed to the path
builder are assumed to carry their fields, as a missing `category` would
crash the real adapter before reaching the template). -/
def dlValueStr : Option Value → String
  | some (.str s) => s
  | _ => "undefined"

/-- The output path for one CSV row: `{category}/{canonical_name}.toml`. -/
def dlPath (row : List (String × String)) : String :=
  let td := dlTagData row
  categorySegment (dlValueStr (assocGet td "category")) ++ "/" ++
    dlValueStr (assocGet td "canonical_name") ++ ".toml"

/-- All (path, bytes) writes of a CSV-Categorized run, one per row. -/
def dlWrites (rows : List (List (String × String))) : List (String × String) :=
  rows.map (fun row => (dlPath row, serialize (dlDoc row)))

/-! ### Handle-Prefixed adapter (`importLaddr`) -/

/-- JS `s.split('.')` (string separator, all occurrences): accumulator-based
scan producing the dot-separated segments. -/
def splitDotAux : List Char → List Char → List (List Char)
  | [], acc => [acc.reverse]
  | c :: rest, acc =>
      if c = '.' then acc.reverse :: splitDotAux rest []
      else splitDotAux rest (c :: acc)

/-- JS `s.split('.')` as a list of strings. -/
def jsSplitDot (s : String) : List String :=
  (splitDotAux s.data []).map (fun cs => ⟨cs⟩)

/-- JS `s.split('.', 2)`: the split truncated to its first two segments (the
limit discards the remainder, it does not keep it attached). -/
def jsSplitDotLimit2 (s : String) : List String := (jsSplitDot s).take 2

/-- Inverse of the dot split: joins segments with `.` (used to state what
the split decomposes). -/
def joinDot : List (List Char) → List Char
  | [] => []
  | [x] => x
  | x :: y :: rest => x ++ '.' :: joinDot (y :: rest)

/-- Outcome of `importLaddr`'s per-record policy: accepted with a
(prefix, tag) key and a stored record, skipped with a `console.warn`, or
skipped silently. -/
inductive LaddrOutcome where
  | accepted (key : String × String) (record : Doc)
  | skippedWarn
  | skippedSilent

/-- The per-record policy of `importLaddr`: destructure
`Handle.split('.', 2)` into prefix and tag, drop falsy tags with a warning,
drop `event`-prefixed tags silently, drop other unknown prefixes with a
warning, and otherwise store `{ handle, title }` under (prefix, tag). -/
def laddrClassify (handle title : String) : LaddrOutcome :=
  match jsSplitDotLimit2 handle with
  | [p, tag] =>
      if tag = "" then .skippedWarn
      else if p = "event" then .skippedSilent
      else if p ≠ "tech" ∧ p ≠ "topic" then .skippedWarn
      else .accepted (p, tag) [("handle", .str handle), ("title", .str title)]
  | _ => .skippedWarn

/-- Path for an accepted (prefix, tag) pair: `{prefix}/{tag}.toml`. -/
def laddrPath (key : String × String) : String :=
  key.1 ++ "/" ++ key.2 ++ ".toml"

/-- One step of `importLaddr`'s first phase: insert an accepted record into
the in-memory `tagsByPrefix` map (modelled keyed by the (prefix, tag) pair);
assignment to an existing key replaces the earlier record. -/
def laddrStep (m : List ((String × String) × Doc)) (r : String × String) :
    List ((String × String) × Doc) :=
  match laddrClassify r.1 r.2 with
  | .accepted key d => assocSet m key d
  | _ => m

/-- The fully-loaded `tagsByPrefix` map after scanning all records
(each record is a (Handle, Title) pair). -/
def laddrMap (records : List (String × String)) : List ((String × String) × Doc) :=
  records.foldl laddrStep []

/-- The (path, bytes) writes of `importLaddr`'s second phase: one write per
map entry, with the stored record's `handle` field replaced by the absence
marker (`{ ...tags[tag], handle: null }`). -/
def laddrWrites (records : List (String × String)) : List (String × String) :=
  (laddrMap records).map
    (fun e => (laddrPath e.1, serialize (assocSet e.2 "handle" Value.absent)))

/-- Classification of a record by `laddrClassify`, without the payload. -/
def laddrAccepts (handle title : String) : Bool :=
  match laddrClassify handle title with
  | .accepted _ _ => true
  | _ => false

/-! ### Flat-Keyed adapter (`importMatchmaker`) -/

/-- The (path, bytes) writes of `importMatchmaker`: one write per key of the
payload mapping, at `{key}.toml`, with `class_name` cleared
(`{ ...data[tag], class_name: null }`). -/
def matchmakerWrites (data : List (String × Doc)) : List (String × String) :=
  data.map (fun e => (e.1 ++ ".toml", serialize (assocSet e.2 "class_name" Value.absent)))

/-! ### Source-location defaults and run-level control flow -/

/-- Default payload location of `importMatchmaker`. -/
def matchmakerDefaultSource : String :=
  "https://github.com/designforsf/brigade-matchmaker/files/2563599/all_json.txt"

/-- Default payload location of `importDemocracyLab`. -/
def democracylabDefaultSource : String :=
  "https://raw.githubusercontent.com/DemocracyLab/CivicTechExchange/master/common/models/Tag_definitions.csv"

/-- JS falsiness of an optional string argument (`!source`): missing or
empty. -/
def jsFalsyStr : Option String → Bool
  | none => true
  | some s => s = ""

/-- `importMatchmaker`'s source after its fallback
(`if (!source) source = ...`). -/
def matchmakerEffectiveSource (src : Option String) : Option String :=
  if jsFalsyStr src then some matchmakerDefaultSource else src

/-- `importDemocracyLab`'s source after its fallback. -/
def democracylabEffectiveSource (src : Option String) : Option String :=
  if jsFalsyStr src then some democracylabDefaultSource else src

/-- `importLaddr`'s source: the function destructures `{ source }` with no
default and no fallback branch. -/
def laddrEffectiveSource (src : Option String) : Option String := src

/-- JS template-literal coercion (`undefined` interpolates as the text
"undefined"). -/
def jsTemplateStr : Option String → String
  | none => "undefined"
  | some s => s

/-- The URL `importLaddr` requests: `http://${source}/tags`. -/
def laddrRequestUrl (src : Option String) : String :=
  "http://" ++ jsTemplateStr src ++ "/tags"

/-- Result of one adapter run: a finalized tree of writes, or a fatal
failure with no finalized tree. -/
inductive RunOutcome where
  | finalized (writes : List (String × String))
  | failed (err : String)
deriving DecidableEq

/-- `importLaddr` end to end: a rejected fetch propagates through `await` as
a fatal error before any write or finalize; a successful fetch builds and
finalizes the tree. -/
def laddrRun (fetched : Except String (List (String × String))) : RunOutcome :=
  match fetched with
  | .error e => .failed e
  | .ok records => .finalized (laddrWrites records)

/-- `importMatchmaker` end to end. -/
def matchmakerRun (fetched : Except String (List (String × Doc))) : RunOutcome :=
  match fetched with
  | .error e => .failed e
  | .ok data => .finalized (matchmakerWrites data)

/-- `importDemocracyLab` end to end: a fetch or CSV-decode error fires the
stream's error handler, rejecting the promise before `tree.write()`. -/
def dlRun (fetched : Except String (List (List (String × String)))) : RunOutcome :=
  match fetched with
  | .error e => .failed e
  | .ok rows => .finalized (dlWrites rows)

/-! ### Order-insensitive document equivalence -/

mutual

/-- Two values carry the same field→value content, ignoring key insertion
order at every nesting level. -/
inductive ValueEquiv : Value → Value → Prop where
  | str (s : String) : ValueEquiv (.str s) (.str s)
  | absent : ValueEquiv .absent .absent
  | table {e1 mid e2 : List (String × Value)} :
      EntriesPointwise e1 mid → mid.Perm e2 → ValueEquiv (.table e1) (.table e2)

/-- Pointwise lifting of `ValueEquiv` to entry lists (same keys in the same
positions, equivalent values). -/
inductive EntriesPointwise : List (String × Value) → List (String × Value) → Prop where
  | nil : EntriesPointwise [] []
  | cons (k : String) {v1 v2 : Value} {t1 t2 : List (String × Value)} :
      ValueEquiv v1 v2 → EntriesPointwise t1 t2 →
      EntriesPointwise ((k, v1) :: t1) ((k, v2) :: t2)

end

/-- Two documents have the same field→value set: the second is a
permutation of the first after an in-place, recursively order-insensitive
rewrite of the values. -/
def DocEquiv (d1 d2 : Doc) : Prop :=
  ∃ mid, EntriesPointwise d1 mid ∧ mid.Perm d2

mutual

/-- Keys are duplicate-free at every nesting level of a value (always true
of data read from JS objects). -/
def nodupValue : Value → Bool
  | .str _ => true
  | .absent => true
  | .table d => nodupEntries d

/-- Keys are duplicate-free at every nesting level of an entry list. -/
def nodupEntries : List (String × Value) → Bool
  | [] => true
  | (k, v) :: rest =>
      (!rest.any (fun e => decide (e.1 = k))) && nodupValue v && nodupEntries rest

end

/-- The record stored under a (prefix, tag) key after a full scan, as the
claim describes it: the last accepted record with that key. -/
def lastStored (records : List (String × String)) (key : String × String) : Option Doc :=
  (records.reverse.filterMap (fun r =>
    match laddrClassify r.1 r.2 with
    | .accepted k d => if k = key then some d else none
    | _ => none)).head?

/-! ### Association-list lemmas -/

section AssocLemmas

variable {α β : Type} [DecidableEq α]

theorem any_key_eq_false {m : List (α × β)} {k : α}
    (h : ¬ m.any (fun e => decide (e.1 = k)) = true) : ∀ e ∈ m, e.1 ≠ k := by
  intro e he hk
  exact h (List.any_eq_true.mpr ⟨e, he, by simp [hk]⟩)

theorem assocGet_append_none {m1 : List (α × β)} {k : α} (m2 : List (α × β))
    (h : assocGet m1 k = none) : assocGet (m1 ++ m2) k = assocGet m2 k := by
  induction m1 with
  | nil => rfl
  | cons e rest ih =>
      by_cases he : e.1 = k
      · simp [assocGet, he] at h
      · simp only [assocGet, he, if_false, List.cons_append] at h ⊢
        exact ih h

theorem assocGet_eq_none_of_forall {m : List (α × β)} {k : α}
    (h : ∀ e ∈ m, e.1 ≠ k) : assocGet m k = none := by
  induction m with
  | nil => rfl
  | cons e rest ih =>
      have he : e.1 ≠ k := h e (by simp)
      simp only [assocGet, he, if_false]
      exact ih (fun x hx => h x (by simp [hx]))

theorem assocGet_map_set_self {rest : List (α × β)} {k : α} (v : β)
    (h : rest.any (fun e => decide (e.1 = k)) = true) :
    assocGet (rest.map (fun e => if e.1 = k then (k, v) else e)) k = some v := by
  induction rest with
  | nil => simp at h
  | cons e t ih =>
      by_cases he : e.1 = k
      · simp [assocGet, he]
      · have hr : t.any (fun e => decide (e.1 = k)) = true := by
          simpa [List.any_cons, he] using h
        simp only [List.map_cons, if_neg he, assocGet, he, if_false]
        exact ih hr

theorem assocGet_set_self (m : List (α × β)) (k : α) (v : β) :
    assocGet (assocSet m k v) k = some v := by
  unfold assocSet
  by_cases h : m.any (fun e => decide (e.1 = k)) = true
  · rw [if_pos h]
    exact assocGet_map_set_self v h
  · rw [if_neg h]
    rw [assocGet_append_none _ (assocGet_eq_none_of_forall (any_key_eq_false h))]
    simp [assocGet]

theorem assocGet_map_set_ne (rest : List (α × β)) {k k2 : α} (v : β) (hne : k2 ≠ k) :
    assocGet (rest.map (fun e => if e.1 = k then (k, v) else e)) k2 = assocGet rest k2 := by
  induction rest with
  | nil => rfl
  | cons e t ih =>
      by_cases he : e.1 = k
      · have h1 : ¬ (k = k2) := fun hh => hne hh.symm
        have h2 : ¬ (e.1 = k2) := by rw [he]; exact h1
        simp only [List.map_cons, if_pos he, assocGet, h1, h2, if_false]
        exact ih
      · by_cases he2 : e.1 = k2
        · simp only [List.map_cons, if_neg he, assocGet]
          rw [if_pos he2, if_pos he2]
        · simp only [List.map_cons, if_neg he, assocGet, he2, if_false]
          exact ih

theorem assocGet_append_single_ne (m : List (α × β)) {k k2 : α} (v : β) (h1 : ¬ k = k2) :
    assocGet (m ++ [(k, v)]) k2 = assocGet m k2 := by
  induction m with
  | nil => simp [assocGet, h1]
  | cons e rest ih =>
      by_cases he : e.1 = k2
      · simp [assocGet, he]
      · simp only [List.cons_append, assocGet, he, if_false]
        exact ih

theorem assocGet_set_ne (m : List (α × β)) {k k2 : α} (v : β) (hne : k2 ≠ k) :
    assocGet (assocSet m k v) k2 = assocGet m k2 := by
  unfold assocSet
  by_cases h : m.any (fun e => decide (e.1 = k)) = true
  · rw [if_pos h]
    exact assocGet_map_set_ne m v hne
  · rw [if_neg h]
    exact assocGet_append_single_ne m v (fun hh => hne hh.symm)

theorem mem_assocSet_key_eq {m : List (α × β)} {k : α} {v : β} :
    ∀ e ∈ assocSet m k v, e.1 = k → e.2 = v := by
  intro e he hk
  unfold assocSet at he
  by_cases h : m.any (fun e => decide (e.1 = k)) = true
  · rw [if_pos h, List.mem_map] at he
    obtain ⟨e0, _, rfl⟩ := he
    by_cases h0 : e0.1 = k
    · rw [if_pos h0]
    · rw [if_neg h0] at hk
      exact absurd hk h0
  · rw [if_neg h, List.mem_append, List.mem_singleton] at he
    rcases he with he | rfl
    · exact absurd hk (any_key_eq_false h e he)
    · rfl

theorem assocSet_keys (m : List (α × β)) (k : α) (v : β) :
    (assocSet m k v).map Prod.fst =
      if m.any (fun e => decide (e.1 = k)) then m.map Prod.fst
      else m.map Prod.fst ++ [k] := by
  unfold assocSet
  by_cases h : m.any (fun e => decide (e.1 = k)) = true
  · simp only [h, if_true, List.map_map]
    apply List.map_congr_left
    intro e _
    by_cases he : e.1 = k <;> simp [he]
  · simp [h]

theorem assocSet_keys_nodup {m : List (α × β)} {k : α} {v : β}
    (h : (m.map Prod.fst).Nodup) : ((assocSet m k v).map Prod.fst).Nodup := by
  rw [assocSet_keys]
  by_cases ha : m.any (fun e => decide (e.1 = k)) = true
  · simpa [ha] using h
  · have hall := any_key_eq_false ha
    simp only [ha, Bool.false_eq_true, if_false]
    rw [List.nodup_append]
    refine ⟨h, List.nodup_singleton _, ?_⟩
    intro x hx
    simp only [List.mem_map] at hx
    obtain ⟨e, he, rfl⟩ := hx
    simpa using fun hk => hall e he hk

theorem assocSet_key_prop {m : List (α × β)} {k : α} {v : β} (P : α → Prop)
    (hm : ∀ e ∈ m, P e.1) (hk : P k) : ∀ e ∈ assocSet m k v, P e.1 := by
  intro e he
  unfold assocSet at he
  by_cases h : m.any (fun e => decide (e.1 = k)) = true
  · rw [if_pos h, List.mem_map] at he
    obtain ⟨e0, he0, rfl⟩ := he
    by_cases h0 : e0.1 = k
    · rw [if_pos h0]
      exact hk
    · rw [if_neg h0]
      exact hm e0 he0
  · rw [if_neg h, List.mem_append, List.mem_singleton] at he
    rcases he with he | rfl
    · exact hm e he
    · exact hk

end AssocLemmas

/-! ### Strip and sort lemmas -/

theorem stripEntries_eq_filterMap (l : List (String × Value)) :
    stripEntries l =
      l.filterMap (fun e => if e.2.isAbsent then none else some (e.1, stripValue e.2)) := by
  induction l with
  | nil => rfl
  | cons e rest ih =>
      obtain ⟨k, v⟩ := e
      by_cases h : v.isAbsent = true
      · simp [stripEntries, h, List.filterMap_cons, ih]
      · have hf : v.isAbsent = false := by simpa using h
        simp [stripEntries, hf, List.filterMap_cons, ih]

theorem stripEntries_append (l1 l2 : List (String × Value)) :
    stripEntries (l1 ++ l2) = stripEntries l1 ++ stripEntries l2 := by
  simp [stripEntries_eq_filterMap, List.filterMap_append]

theorem strip_eraseField {d : Doc} {k : String}
    (h : assocGet d k = some Value.absent) :
    stripEntries (eraseField k d) = stripEntries d := by
  induction d with
  | nil => simp [assocGet] at h
  | cons e rest ih =>
      obtain ⟨k1, v⟩ := e
      by_cases he : k1 = k
      · simp only [assocGet, he, if_true] at h
        have hv : v = Value.absent := Option.some.inj h
        subst hv
        have h1 : eraseField k ((k1, Value.absent) :: rest) = rest := by
          simp [eraseField, he]
        have h2 : stripEntries ((k1, Value.absent) :: rest) = stripEntries rest := by
          simp [stripEntries, Value.isAbsent]
        rw [h1, h2]
      · simp only [assocGet, he, if_false] at h
        by_cases hv : v.isAbsent = true
        · simp [eraseField, he, stripEntries, hv, ih h]
        · have hf : v.isAbsent = false := by simpa using hv
          simp [eraseField, he, stripEntries, hf, ih h]

theorem strip_get_none {m : Doc} {k : String}
    (h : ∀ e ∈ m, e.1 = k → e.2 = Value.absent) :
    assocGet (stripEntries m) k = none := by
  induction m with
  | nil => rfl
  | cons e rest ih =>
      obtain ⟨k1, v⟩ := e
      by_cases hv : v.isAbsent = true
      · simp only [stripEntries, hv, if_true]
        exact ih (fun x hx => h x (by simp [hx]))
      · have hf : v.isAbsent = false := by simpa using hv
        simp only [stripEntries, hf, Bool.false_eq_true, if_false]
        have hk1 : k1 ≠ k := by
          intro hk
          have hv2 : v = Value.absent := h (k1, v) (by simp) hk
          rw [hv2] at hf
          simp [Value.isAbsent] at hf
        simp only [assocGet, hk1, if_false]
        exact ih (fun x hx => h x (by simp [hx]))

theorem stripEntries_map_set_congr {k : String} {v1 v2 : Value}
    (hs : stripValue v1 = stripValue v2) (ha : v1.isAbsent = v2.isAbsent)
    (d : Doc) :
    stripEntries (d.map (fun e => if e.1 = k then (k, v1) else e)) =
      stripEntries (d.map (fun e => if e.1 = k then (k, v2) else e)) := by
  induction d with
  | nil => rfl
  | cons e rest ih =>
      simp only [List.map_cons]
      by_cases he : e.1 = k
      · rw [if_pos he, if_pos he]
        by_cases hv : v1.isAbsent = true
        · have hv2 : v2.isAbsent = true := by rw [← ha]; exact hv
          simp only [stripEntries, hv, hv2, if_true]
          exact ih
        · have hf1 : v1.isAbsent = false := by simpa using hv
          have hf2 : v2.isAbsent = false := by rw [← ha]; exact hf1
          simp only [stripEntries, hf1, hf2, Bool.false_eq_true, if_false, hs]
          rw [ih]
      · rw [if_neg he, if_neg he]
        obtain ⟨k1, v⟩ := e
        by_cases hv : v.isAbsent = true
        · simp only [stripEntries, hv, if_true]
          exact ih
        · have hf : v.isAbsent = false := by simpa using hv
          simp only [stripEntries, hf, Bool.false_eq_true, if_false]
          rw [ih]

theorem stripEntries_congr_set {d : Doc} {k : String} {v1 v2 : Value}
    (hs : stripValue v1 = stripValue v2) (ha : v1.isAbsent = v2.isAbsent) :
    stripEntries (assocSet d k v1) = stripEntries (assocSet d k v2) := by
  unfold assocSet
  by_cases h : d.any (fun e => decide (e.1 = k)) = true
  · rw [if_pos h, if_pos h]
    exact stripEntries_map_set_congr hs ha d
  · rw [if_neg h, if_neg h]
    rw [stripEntries_append, stripEntries_append]
    by_cases hv : v1.isAbsent = true
    · have hv2 : v2.isAbsent = true := by rw [← ha]; exact hv
      simp [stripEntries, hv, hv2]
    · have hf1 : v1.isAbsent = false := by simpa using hv
      have hf2 : v2.isAbsent = false := by rw [← ha]; exact hf1
      simp [stripEntries, hf1, hf2, hs]

theorem sortEntries_eq_map (l : List (String × Value)) :
    sortEntries l = l.map (fun e => (e.1, sortValue e.2)) := by
  induction l with
  | nil => rfl
  | cons e rest ih => obtain ⟨k, v⟩ := e; simp [sortEntries, ih]

theorem keys_sortEntries (l : List (String × Value)) :
    (sortEntries l).map Prod.fst = l.map Prod.fst := by
  rw [sortEntries_eq_map, List.map_map]
  rfl

theorem keys_stripEntries_sublist (l : List (String × Value)) :
    ((stripEntries l).map Prod.fst).Sublist (l.map Prod.fst) := by
  induction l with
  | nil => simp [stripEntries]
  | cons e rest ih =>
      obtain ⟨k, v⟩ := e
      by_cases hv : v.isAbsent = true
      · simp only [stripEntries, hv, if_true, List.map_cons]
        exact ih.cons _
      · have hf : v.isAbsent = false := by simpa using hv
        simp only [stripEntries, hf, Bool.false_eq_true, if_false, List.map_cons]
        exact ih.cons₂ _

theorem nodupEntries_keys {l : List (String × Value)}
    (h : nodupEntries l = true) : (l.map Prod.fst).Nodup := by
  induction l with
  | nil => simp
  | cons e rest ih =>
      obtain ⟨k, v⟩ := e
      simp only [nodupEntries, Bool.and_eq_true, Bool.not_eq_true'] at h
      obtain ⟨⟨hany, _⟩, hrest⟩ := h
      have hmem : k ∉ rest.map Prod.fst := by
        intro hk
        rw [List.mem_map] at hk
        obtain ⟨e0, he0, hke⟩ := hk
        have hx : rest.any (fun e => decide (e.1 = k)) = true :=
          List.any_eq_true.mpr ⟨e0, he0, by simp [hke]⟩
        rw [hany] at hx
        exact Bool.false_ne_true hx
      simp only [List.map_cons, List.nodup_cons]
      exact ⟨hmem, ih hrest⟩

/-- Insertion sort by key sends key-duplicate-free permutations of entry
lists to the same sorted list. -/
theorem insertionSort_eq_of_perm {l1 l2 : List (String × Value)}
    (hp : l1.Perm l2) (hn : (l1.map Prod.fst).Nodup) :
    List.insertionSort keyLe l1 = List.insertionSort keyLe l2 := by
  have hs1 : List.Sorted keyLe (List.insertionSort keyLe l1) :=
    List.sorted_insertionSort keyLe l1
  have hs2 : List.Sorted keyLe (List.insertionSort keyLe l2) :=
    List.sorted_insertionSort keyLe l2
  have hp1 : (List.insertionSort keyLe l1).Perm l1 := List.perm_insertionSort keyLe l1
  have hp2 : (List.insertionSort keyLe l2).Perm l2 := List.perm_insertionSort keyLe l2
  have hperm : (List.insertionSort keyLe l1).Perm (List.insertionSort keyLe l2) :=
    (hp1.trans hp).trans hp2.symm
  have hn1 : ((List.insertionSort keyLe l1).map Prod.fst).Nodup :=
    ((hp1.map Prod.fst).nodup_iff).mpr hn
  have hn2 : ((List.insertionSort keyLe l2).map Prod.fst).Nodup :=
    ((hperm.map Prod.fst).nodup_iff).mp hn1
  have hne1 : (List.insertionSort keyLe l1).Pairwise (fun a b => a.1 ≠ b.1) :=
    (List.pairwise_map).mp hn1
  have hne2 : (List.insertionSort keyLe l2).Pairwise (fun a b => a.1 ≠ b.1) :=
    (List.pairwise_map).mp hn2
  have hlt1 : (List.insertionSort keyLe l1).Pairwise keyLt :=
    (hs1.and hne1).imp (fun h => lt_of_le_of_ne h.1 h.2)
  have hlt2 : (List.insertionSort keyLe l2).Pairwise keyLt :=
    (hs2.and hne2).imp (fun h => lt_of_le_of_ne h.1 h.2)
  exact List.eq_of_perm_of_sorted hperm hlt1 hlt2

/-! ### Determinism of the canonical serializer -/

theorem pw_keys : ∀ {l1 l2 : List (String × Value)}, EntriesPointwise l1 l2 →
    l1.map Prod.fst = l2.map Prod.fst := by
  intro l1
  induction l1 with
  | nil => intro l2 h; cases h; rfl
  | cons e t ih =>
      intro l2 h
      cases h with
      | cons k hv hpw => simp [ih hpw]

theorem vequiv_isAbsent {v1 v2 : Value} (h : ValueEquiv v1 v2) :
    v1.isAbsent = v2.isAbsent := by
  cases h <;> rfl

/-- Fuel-indexed joint induction: equivalent values (documents) with
duplicate-free keys have identical strip-then-deep-sort canonical forms. -/
theorem canonAux : ∀ n : Nat,
    (∀ v1 v2, sizeOf v1 ≤ n → ValueEquiv v1 v2 → nodupValue v1 = true →
      sortValue (stripValue v1) = sortValue (stripValue v2)) ∧
    (∀ d1 d2, sizeOf d1 ≤ n → EntriesPointwise d1 d2 → nodupEntries d1 = true →
      sortEntries (stripEntries d1) = sortEntries (stripEntries d2)) := by
  intro n
  induction n using Nat.strong_induction_on with
  | _ n ih =>
    have entriesPart : ∀ d1 d2, sizeOf d1 ≤ n → EntriesPointwise d1 d2 →
        nodupEntries d1 = true → sortEntries (stripEntries d1) = sortEntries (stripEntries d2) := by
      intro d1
      induction d1 with
      | nil =>
          intro d2 _ hpw _
          cases hpw
          rfl
      | cons e t iht =>
          intro d2 hsz hpw hn
          cases hpw with
          | cons k hv hpw2 =>
              rename_i v1 v2 t2
              simp only [nodupEntries, Bool.and_eq_true, Bool.not_eq_true'] at hn
              obtain ⟨⟨hany, hnv⟩, hnt⟩ := hn
              have hszt : sizeOf t ≤ n := by
                refine le_trans (le_of_lt ?_) hsz
                simp only [List.cons.sizeOf_spec]
                omega
              have hszv : sizeOf v1 < n := by
                refine lt_of_lt_of_le ?_ hsz
                simp only [List.cons.sizeOf_spec, Prod.mk.sizeOf_spec]
                omega
              have hval : sortValue (stripValue v1) = sortValue (stripValue v2) :=
                (ih (sizeOf v1) hszv).1 v1 v2 le_rfl hv hnv
              by_cases hab : v1.isAbsent = true
              · have hab2 : v2.isAbsent = true := by
                  rw [← vequiv_isAbsent hv]; exact hab
                simp only [stripEntries, hab, hab2, if_true]
                exact iht t2 hszt hpw2 hnt
              · have hf1 : v1.isAbsent = false := by simpa using hab
                have hf2 : v2.isAbsent = false := by
                  rw [← vequiv_isAbsent hv]; exact hf1
                simp only [stripEntries, hf1, hf2, Bool.false_eq_true, if_false, sortEntries]
                rw [hval, iht t2 hszt hpw2 hnt]
    refine ⟨?_, entriesPart⟩
    intro v1 v2 hsz hv hn
    cases hv with
    | str s => rfl
    | absent => rfl
    | table hpw hperm =>
        rename_i e1 mid e2
        simp only [stripValue, sortValue]
        have hsz1 : sizeOf e1 ≤ n := by
          refine le_trans (le_of_lt ?_) hsz
          simp only [Value.table.sizeOf_spec]
          omega
        have hne1 : nodupEntries e1 = true := by
          simpa only [nodupValue] using hn
        have step1 : sortEntries (stripEntries e1) = sortEntries (stripEntries mid) :=
          entriesPart e1 mid hsz1 hpw hne1
        have step2 : (stripEntries mid).Perm (stripEntries e2) := by
          rw [stripEntries_eq_filterMap, stripEntries_eq_filterMap]
          exact hperm.filterMap _
        have step3 : (sortEntries (stripEntries mid)).Perm (sortEntries (stripEntries e2)) := by
          rw [sortEntries_eq_map, sortEntries_eq_map]
          exact step2.map _
        have hkeys : (mid.map Prod.fst).Nodup := by
          rw [← pw_keys hpw]
          exact nodupEntries_keys hne1
        have hnod : ((sortEntries (stripEntries mid)).map Prod.fst).Nodup := by
          rw [keys_sortEntries]
          exact (keys_stripEntries_sublist mid).nodup hkeys
        rw [step1]
        rw [insertionSort_eq_of_perm step3 hnod]

/-! ### Claim C1 -/

/-- C1: for any two NormalizedDocuments with the same field→value set
(`DocEquiv`, ignoring key insertion order at every nesting level; keys
duplicate-free as in any JS object), `serialize` produces byte-identical
CanonicalBytes, because keys are sorted lexicographically at every nesting
level before emission. -/
theorem claim1_serialize_deterministic (d1 d2 : Doc)
    (he : DocEquiv d1 d2) (hn : nodupEntries d1 = true) :
    serialize d1 = serialize d2 := by
  obtain ⟨mid, hpw, hperm⟩ := he
  unfold serialize sortDoc
  have step1 := (canonAux (sizeOf d1)).2 d1 mid le_rfl hpw hn
  have step2 : (stripEntries mid).Perm (stripEntries d2) := by
    rw [stripEntries_eq_filterMap, stripEntries_eq_filterMap]
    exact hperm.filterMap _
  have step3 : (sortEntries (stripEntries mid)).Perm (sortEntries (stripEntries d2)) := by
    rw [sortEntries_eq_map, sortEntries_eq_map]
    exact step2.map _
  have hkeys : (mid.map Prod.fst).Nodup := by
    rw [← pw_keys hpw]
    exact nodupEntries_keys hn
  have hnod : ((sortEntries (stripEntries mid)).map Prod.fst).Nodup := by
    rw [keys_sortEntries]
    exact (keys_stripEntries_sublist mid).nodup hkeys
  rw [step1, insertionSort_eq_of_perm step3 hnod]

/-- Witness for C1 at concrete documents differing in key order at both the
top level and inside a nested table. -/
theorem claim1_witness :
    DocEquiv
      [("b", Value.str "1"), ("a", Value.table [("y", Value.str "2"), ("x", Value.str "3")])]
      [("a", Value.table [("x", Value.str "3"), ("y", Value.str "2")]), ("b", Value.str "1")] ∧
    nodupEntries
      [("b", Value.str "1"), ("a", Value.table [("y", Value.str "2"), ("x", Value.str "3")])] = true ∧
    serialize
      [("b", Value.str "1"), ("a", Value.table [("y", Value.str "2"), ("x", Value.str "3")])] =
    serialize
      [("a", Value.table [("x", Value.str "3"), ("y", Value.str "2")]), ("b", Value.str "1")] := by
  have hinner : ValueEquiv
      (Value.table [("y", Value.str "2"), ("x", Value.str "3")])
      (Value.table [("x", Value.str "3"), ("y", Value.str "2")]) :=
    ValueEquiv.table
      (EntriesPointwise.cons "y" (ValueEquiv.str "2")
        (EntriesPointwise.cons "x" (ValueEquiv.str "3") EntriesPointwise.nil))
      (List.Perm.swap ("x", Value.str "3") ("y", Value.str "2") [])
  have hpw : EntriesPointwise
      [("b", Value.str "1"), ("a", Value.table [("y", Value.str "2"), ("x", Value.str "3")])]
      [("b", Value.str "1"), ("a", Value.table [("x", Value.str "3"), ("y", Value.str "2")])] :=
    EntriesPointwise.cons "b" (ValueEquiv.str "1")
      (EntriesPointwise.cons "a" hinner EntriesPointwise.nil)
  have hperm :
      ([("b", Value.str "1"),
        ("a", Value.table [("x", Value.str "3"), ("y", Value.str "2")])] : Doc).Perm
      [("a", Value.table [("x", Value.str "3"), ("y", Value.str "2")]), ("b", Value.str "1")] :=
    List.Perm.swap ("a", Value.table [("x", Value.str "3"), ("y", Value.str "2")])
      ("b", Value.str "1") []
  have he : DocEquiv
      [("b", Value.str "1"), ("a", Value.table [("y", Value.str "2"), ("x", Value.str "3")])]
      [("a", Value.table [("x", Value.str "3"), ("y", Value.str "2")]), ("b", Value.str "1")] :=
    ⟨_, hpw, hperm⟩
  exact ⟨he, rfl, claim1_serialize_deterministic _ _ he rfl⟩

/-! ### Claim C7 -/

/-- A field holding the absence marker can be removed without changing the
serialized output. -/
theorem serialize_eraseField_absent {d : Doc} {k : String}
    (h : assocGet d k = some Value.absent) :
    serialize d = serialize (eraseField k d) := by
  unfold serialize
  rw [strip_eraseField h]

/-- An absence-marker field of a nested table can be removed without
changing the serialized output of the enclosing document. -/
theorem serialize_table_erase_absent (d : Doc) (k : String) {k2 : String} {inner : Doc}
    (h : assocGet inner k2 = some Value.absent) :
    serialize (assocSet d k (Value.table inner)) =
      serialize (assocSet d k (Value.table (eraseField k2 inner))) := by
  have hs : stripValue (Value.table inner) =
      stripValue (Value.table (eraseField k2 inner)) := by
    simp only [stripValue]
    rw [strip_eraseField h]
  unfold serialize
  rw [stripEntries_congr_set hs rfl]

/-- C7: a field whose value is the explicit-absence marker is omitted
entirely from the serialized output (removing it changes nothing), both at
the top level and inside a nested table; in particular a blank `parent`,
`subcategory` or `caption` CSV column yields a document whose serialization
is identical with that field removed. -/
theorem claim7_absent_omitted :
    (∀ (d : Doc) (k : String), assocGet d k = some Value.absent →
      serialize d = serialize (eraseField k d)) ∧
    (∀ (d : Doc) (k : String) {k2 : String} {inner : Doc},
      assocGet inner k2 = some Value.absent →
      serialize (assocSet d k (Value.table inner)) =
        serialize (assocSet d k (Value.table (eraseField k2 inner)))) ∧
    (∀ row, assocGet (dlTagData row) "parent" = some (Value.str "") →
      serialize (dlDoc row) = serialize (eraseField "parent" (dlDoc row))) ∧
    (∀ row, assocGet (dlTagData row) "subcategory" = some (Value.str "") →
      serialize (dlDoc row) = serialize (eraseField "subcategory" (dlDoc row))) ∧
    (∀ row, assocGet (dlTagData row) "caption" = some (Value.str "") →
      serialize (dlDoc row) = serialize (eraseField "caption" (dlDoc row))) := by
  refine ⟨fun d k h => serialize_eraseField_absent h,
    fun d k _ _ h => serialize_table_erase_absent d k h, ?_, ?_, ?_⟩
  · intro row h
    apply serialize_eraseField_absent
    unfold dlDoc
    rw [assocGet_set_ne _ _ (by decide), assocGet_set_ne _ _ (by decide),
      assocGet_set_self, h]
    rfl
  · intro row h
    apply serialize_eraseField_absent
    unfold dlDoc
    rw [assocGet_set_ne _ _ (by decide), assocGet_set_self, h]
    rfl
  · intro row h
    apply serialize_eraseField_absent
    unfold dlDoc
    rw [assocGet_set_self, h]
    rfl

/-- Witness for C7 at a concrete document and a concrete CSV row with a
blank `parent` column. -/
theorem claim7_witness :
    assocGet ([("x", Value.absent), ("y", Value.str "v")] : Doc) "x" = some Value.absent ∧
    serialize [("x", Value.absent), ("y", Value.str "v")] =
      serialize (eraseField "x" [("x", Value.absent), ("y", Value.str "v")]) ∧
    assocGet (dlTagData [("Parent", ""), ("Caption", "c")]) "parent" = some (Value.str "") ∧
    serialize (dlDoc [("Parent", ""), ("Caption", "c")]) =
      serialize (eraseField "parent" (dlDoc [("Parent", ""), ("Caption", "c")])) :=
  ⟨rfl, claim7_absent_omitted.1 _ "x" rfl, rfl,
    claim7_absent_omitted.2.2.1 [("Parent", ""), ("Caption", "c")] rfl⟩

/-! ### Claim C8 -/

/-- C8: the Flat-Keyed adapter produces exactly one document per payload
key, at path `{key}.toml` (no subdirectory when the key has no slash), with
the `class_name` field absent from the serialized document and every other
field carried over unchanged. -/
theorem claim8_matchmaker :
    (∀ data : List (String × Doc), (matchmakerWrites data).length = data.length) ∧
    (∀ (data : List (String × Doc)) (k : String) (record : Doc), (k, record) ∈ data →
      (k ++ ".toml", serialize (assocSet record "class_name" Value.absent)) ∈
        matchmakerWrites data) ∧
    (∀ record : Doc,
      assocGet (stripEntries (assocSet record "class_name" Value.absent)) "class_name" = none) ∧
    (∀ (record : Doc) (f : String), f ≠ "class_name" →
      assocGet (assocSet record "class_name" Value.absent) f = assocGet record f) ∧
    (∀ k : String, '/' ∉ k.data → '/' ∉ (k ++ ".toml").data) := by
  refine ⟨?_, ?_, ?_, ?_, ?_⟩
  · intro data
    simp [matchmakerWrites]
  · intro data k record hmem
    exact List.mem_map.mpr ⟨(k, record), hmem, rfl⟩
  · intro record
    exact strip_get_none (fun e he hk => mem_assocSet_key_eq e he hk)
  · intro record f hne
    exact assocGet_set_ne _ _ hne
  · intro k hk hmem
    rw [String.data_append] at hmem
    rcases List.mem_append.mp hmem with h1 | h2
    · exact hk h1
    · exact absurd h2 (by decide)

/-- Witness for C8 at the spec's concrete Flat-Keyed example. -/
theorem claim8_witness :
    (("clean-water", [("class_name", Value.str "CleanWater"),
        ("description", Value.str "d")]) ∈
      ([("clean-water", [("class_name", Value.str "CleanWater"),
        ("description", Value.str "d")])] : List (String × Doc))) ∧
    ("clean-water" ++ ".toml",
      serialize (assocSet [("class_name", Value.str "CleanWater"),
        ("description", Value.str "d")] "class_name" Value.absent)) ∈
      matchmakerWrites [("clean-water", [("class_name", Value.str "CleanWater"),
        ("description", Value.str "d")])] ∧
    (("description" : String) ≠ "class_name") ∧
    assocGet (assocSet ([("class_name", Value.str "CleanWater"),
        ("description", Value.str "d")] : Doc) "class_name" Value.absent) "description" =
      assocGet ([("class_name", Value.str "CleanWater"),
        ("description", Value.str "d")] : Doc) "description" ∧
    ('/' ∉ ("clean-water" : String).data) ∧ '/' ∉ ("clean-water" ++ ".toml" : String).data :=
  ⟨List.mem_singleton.mpr rfl,
    claim8_matchmaker.2.1 _ "clean-water" _ (List.mem_singleton.mpr rfl),
    by decide,
    claim8_matchmaker.2.2.2.1 _ "description" (by decide),
    by decide,
    claim8_matchmaker.2.2.2.2 "clean-water" (by decide)⟩

/-! ### Claim C9 -/

/-- C9: when the fetch or decode collaborator reports a failure, every
adapter run aborts as a fatal error and never reaches a finalized tree. -/
theorem claim9_fatal_fetch :
    ∀ e : String,
      laddrRun (Except.error e) = RunOutcome.failed e ∧
      matchmakerRun (Except.error e) = RunOutcome.failed e ∧
      dlRun (Except.error e) = RunOutcome.failed e ∧
      (∀ ws, laddrRun (Except.error e) ≠ RunOutcome.finalized ws) ∧
      (∀ ws, matchmakerRun (Except.error e) ≠ RunOutcome.finalized ws) ∧
      (∀ ws, dlRun (Except.error e) ≠ RunOutcome.finalized ws) := by
  intro e
  refine ⟨rfl, rfl, rfl, ?_, ?_, ?_⟩
  · intro ws h
    exact RunOutcome.noConfusion
      (show RunOutcome.failed e = RunOutcome.finalized ws from h)
  · intro ws h
    exact RunOutcome.noConfusion
      (show RunOutcome.failed e = RunOutcome.finalized ws from h)
  · intro ws h
    exact RunOutcome.noConfusion
      (show RunOutcome.failed e = RunOutcome.finalized ws from h)

/-! ### Claim C5 -/

/-- C5 counterexample: with the source argument omitted, the Flat-Keyed and
CSV-Categorized adapters substitute their fixed defaults, but the
Handle-Prefixed adapter substitutes nothing — its effective source is still
missing and its request URL interpolates the missing value as the literal
text "undefined". -/
theorem claim5_counterexample :
    laddrEffectiveSource none = none ∧
    laddrRequestUrl none = "http://undefined/tags" ∧
    matchmakerEffectiveSource none = some matchmakerDefaultSource ∧
    democracylabEffectiveSource none = some democracylabDefaultSource :=
  ⟨rfl, rfl, rfl, rfl⟩

/-- C5 amended: the Flat-Keyed and CSV-Categorized adapters fall back to a
fixed default source location when the argument is omitted (or empty); the
Handle-Prefixed adapter has no fallback at all and requests
`http://undefined/tags` when the source is omitted. -/
theorem claim5_defaults :
    matchmakerEffectiveSource none = some matchmakerDefaultSource ∧
    matchmakerEffectiveSource (some "") = some matchmakerDefaultSource ∧
    (∀ s : String, s ≠ "" → matchmakerEffectiveSource (some s) = some s) ∧
    democracylabEffectiveSource none = some democracylabDefaultSource ∧
    democracylabEffectiveSource (some "") = some democracylabDefaultSource ∧
    (∀ s : String, s ≠ "" → democracylabEffectiveSource (some s) = some s) ∧
    (∀ src : Option String, laddrEffectiveSource src = src) ∧
    laddrRequestUrl none = "http://undefined/tags" := by
  refine ⟨rfl, rfl, ?_, rfl, rfl, ?_, fun _ => rfl, rfl⟩
  · intro s hs
    simp [matchmakerEffectiveSource, jsFalsyStr, hs]
  · intro s hs
    simp [democracylabEffectiveSource, jsFalsyStr, hs]

/-- Witness for C5 (amended) at a concrete non-empty source override. -/
theorem claim5_witness :
    ("example.org" : String) ≠ "" ∧
    matchmakerEffectiveSource (some "example.org") = some "example.org" :=
  ⟨by decide, claim5_defaults.2.2.1 "example.org" (by decide)⟩

/-! ### Whitespace-run lemmas (claims C3 and C4) -/

theorem replaceAllWs_of_no_run {cs : List Char} (r : List Char)
    (h : wsRunCount cs = 0) : replaceAllWsChars r cs = cs := by
  induction cs with
  | nil => rfl
  | cons c rest ih =>
      by_cases hc : isJsSpace c = true
      · simp only [wsRunCount, hc, if_true] at h
        omega
      · have hf : isJsSpace c = false := by simpa using hc
        simp only [wsRunCount, hf, Bool.false_eq_true, if_false] at h
        simp only [replaceAllWsChars, hf, Bool.false_eq_true, if_false]
        rw [ih h]

theorem replaceAllWsAfterRun_of_no_run {cs : List Char} (r : List Char)
    (h : wsRunCountInRun cs = 0) :
    replaceAllWsAfterRun r cs = cs.dropWhile isJsSpace := by
  induction cs with
  | nil => rfl
  | cons c rest ih =>
      by_cases hc : isJsSpace c = true
      · simp only [wsRunCountInRun, hc, if_true] at h
        simp only [replaceAllWsAfterRun, hc, if_true, List.dropWhile_cons, ih h]
      · have hf : isJsSpace c = false := by simpa using hc
        simp only [wsRunCountInRun, hf, Bool.false_eq_true, if_false] at h
        simp only [replaceAllWsAfterRun, hf, Bool.false_eq_true, if_false,
          List.dropWhile_cons]
        rw [replaceAllWs_of_no_run r h]

theorem replaceFirstWs_eq_all {cs : List Char} (r : List Char)
    (h : wsRunCount cs ≤ 1) : replaceFirstWsChars r cs = replaceAllWsChars r cs := by
  induction cs with
  | nil => rfl
  | cons c rest ih =>
      by_cases hc : isJsSpace c = true
      · simp only [wsRunCount, hc, if_true] at h
        have h0 : wsRunCountInRun rest = 0 := by omega
        simp only [replaceFirstWsChars, replaceAllWsChars, hc, if_true]
        rw [replaceAllWsAfterRun_of_no_run r h0]
      · have hf : isJsSpace c = false := by simpa using hc
        simp only [wsRunCount, hf, Bool.false_eq_true, if_false] at h
        simp only [replaceFirstWsChars, replaceAllWsChars, hf, Bool.false_eq_true,
          if_false]
        rw [ih h]

/-! ### Claim C3 -/

/-- C3 counterexample: the header normalization replaces only the first
whitespace run (`replace(/\s+/, '_')` has no `g` flag), so a header with two
internal runs does not collapse the second one: "A B C" normalizes to
"a_b c", not to the claimed "a_b_c". -/
theorem claim3_counterexample :
    headerFieldName "A B C" = "a_b c" ∧ ("a_b c" : String) ≠ "a_b_c" :=
  ⟨rfl, by decide⟩

/-- C3 amended: a column header is normalized by stripping from the first
(possibly whitespace-preceded) opening parenthesis through the end,
replacing only the first internal whitespace run by a single underscore,
and lowercasing; "Priority (1-5)" yields `priority`, and for headers whose
stripped form has at most one whitespace run this agrees with the spec's
collapse-every-run wording. -/
theorem claim3_header_normalization :
    headerFieldName "Priority (1-5)" = "priority" ∧
    (∀ hdr : String, wsRunCount (stripParenChars hdr.data) ≤ 1 →
      headerFieldName hdr = specHeaderFieldName hdr) := by
  refine ⟨rfl, ?_⟩
  intro hdr hle
  unfold headerFieldName specHeaderFieldName
  rw [replaceFirstWs_eq_all _ hle]

/-- Witness for C3 (amended) at a concrete single-run header. -/
theorem claim3_witness :
    wsRunCount (stripParenChars ("Canonical Name" : String).data) ≤ 1 ∧
    headerFieldName "Canonical Name" = specHeaderFieldName "Canonical Name" :=
  ⟨by decide, claim3_header_normalization.2 "Canonical Name" (by decide)⟩

/-! ### Claim C4 -/

theorem assocGet_eraseField_ne {d : Doc} {k k2 : String} (hne : k ≠ k2) :
    assocGet (eraseField k2 d) k = assocGet d k := by
  induction d with
  | nil => rfl
  | cons e rest ih =>
      by_cases he : e.1 = k2
      · have hek : ¬ e.1 = k := by rw [he]; exact fun hh => hne hh.symm
        have hk2 : ¬ (k2 = k) := fun hh => hne hh.symm
        simp only [eraseField, he, if_true, assocGet, hek, hk2, if_false]
      · simp only [eraseField, he, if_false]
        by_cases hek : e.1 = k
        · simp [assocGet, hek]
        · simp only [assocGet, hek, if_false]
          exact ih

theorem assocSet_preserves_key_val {α β : Type} [DecidableEq α]
    {m : List (α × β)} {k0 : α} {w : β} {k : α} {v : β}
    (hne : k ≠ k0) (h : ∀ e ∈ m, e.1 = k0 → e.2 = w) :
    ∀ e ∈ assocSet m k v, e.1 = k0 → e.2 = w := by
  intro e he hk
  unfold assocSet at he
  by_cases ha : m.any (fun e => decide (e.1 = k)) = true
  · rw [if_pos ha, List.mem_map] at he
    obtain ⟨e0, he0, rfl⟩ := he
    by_cases h0 : e0.1 = k
    · rw [if_pos h0] at hk ⊢
      exact absurd hk hne
    · rw [if_neg h0] at hk ⊢
      exact h e0 he0 hk
  · rw [if_neg ha, List.mem_append, List.mem_singleton] at he
    rcases he with he | rfl
    · exact h e he hk
    · exact absurd hk hne

/-- Every `category`-keyed entry of a CSV row's output document holds the
absence marker. -/
theorem dlDoc_category_absent (row : List (String × String)) :
    ∀ e ∈ dlDoc row, e.1 = "category" → e.2 = Value.absent := by
  unfold dlDoc
  refine assocSet_preserves_key_val (by decide)
    (assocSet_preserves_key_val (by decide)
      (assocSet_preserves_key_val (by decide)
        (assocSet_preserves_key_val (by decide) mem_assocSet_key_eq)))

/-- Every `canonical_name`-keyed entry of a CSV row's output document holds
the absence marker. -/
theorem dlDoc_canonical_name_absent (row : List (String × String)) :
    ∀ e ∈ dlDoc row, e.1 = "canonical_name" → e.2 = Value.absent := by
  unfold dlDoc
  refine assocSet_preserves_key_val (by decide)
    (assocSet_preserves_key_val (by decide)
      (assocSet_preserves_key_val (by decide) mem_assocSet_key_eq))

/-- C4 counterexample: the category normalization replaces only the first
whitespace run and the first occurrence of "(s)" wherever it appears:
"A B C(s)" maps to "a-b cs" (claim: "a-b-cs"), and the non-trailing "(s)"
in "Thing(s) Extra" is replaced, giving "things-extra" rather than the
"thing(s)-extra" a trailing-only rule would give. -/
theorem claim4_counterexample :
    categorySegment "A B C(s)" = "a-b cs" ∧ ("a-b cs" : String) ≠ "a-b-cs" ∧
    categorySegment "Thing(s) Extra" = "things-extra" ∧
    ("things-extra" : String) ≠ "thing(s)-extra" :=
  ⟨rfl, by decide, rfl, by decide⟩

/-- C4 amended: the category is normalized by replacing its first
whitespace run with a hyphen, replacing the first occurrence of "(s)" with
"s", and lowercasing ("Health Care(s)" yields `health-cares`; for
categories with at most one whitespace run this matches the spec's
every-run wording); the `category` and `canonical_name` fields are set to
the absence marker, so they are excluded from the serialized output. -/
theorem claim4_category_normalization :
    categorySegment "Health Care(s)" = "health-cares" ∧
    (∀ c : String, wsRunCount c.data ≤ 1 → categorySegment c = specCategorySegment c) ∧
    (∀ row, assocGet (stripEntries (dlDoc row)) "category" = none) ∧
    (∀ row, assocGet (stripEntries (dlDoc row)) "canonical_name" = none) ∧
    (∀ row, serialize (dlDoc row) =
      serialize (eraseField "category" (eraseField "canonical_name" (dlDoc row)))) := by
  refine ⟨rfl, ?_, ?_, ?_, ?_⟩
  · intro c hle
    unfold categorySegment specCategorySegment
    rw [replaceFirstWs_eq_all _ hle]
  · intro row
    exact strip_get_none (dlDoc_category_absent row)
  · intro row
    exact strip_get_none (dlDoc_canonical_name_absent row)
  · intro row
    have hcn : assocGet (dlDoc row) "canonical_name" = some Value.absent := by
      unfold dlDoc
      rw [assocGet_set_ne _ _ (by decide), assocGet_set_ne _ _ (by decide),
        assocGet_set_ne _ _ (by decide), assocGet_set_self]
    have hcat : assocGet (eraseField "canonical_name" (dlDoc row)) "category" =
        some Value.absent := by
      rw [assocGet_eraseField_ne (by decide)]
      unfold dlDoc
      rw [assocGet_set_ne _ _ (by decide), assocGet_set_ne _ _ (by decide),
        assocGet_set_ne _ _ (by decide), assocGet_set_ne _ _ (by decide),
        assocGet_set_self]
    rw [serialize_eraseField_absent hcn, serialize_eraseField_absent hcat]

/-- Witness for C4 (amended) at the spec's concrete category. -/
theorem claim4_witness :
    wsRunCount ("Health Care(s)" : String).data ≤ 1 ∧
    categorySegment "Health Care(s)" = specCategorySegment "Health Care(s)" :=
  ⟨by decide, claim4_category_normalization.2.1 "Health Care(s)" (by decide)⟩

/-! ### Dot-split lemmas (claims C2 and C6) -/

theorem splitDotAux_ne_nil (cs : List Char) : ∀ acc, splitDotAux cs acc ≠ [] := by
  induction cs with
  | nil => intro acc; simp [splitDotAux]
  | cons c rest ih =>
      intro acc
      by_cases hc : c = '.'
      · simp [splitDotAux, hc]
      · simp only [splitDotAux, hc, if_false]
        exact ih _

theorem joinDot_cons (x : List Char) {parts : List (List Char)} (h : parts ≠ []) :
    joinDot (x :: parts) = x ++ '.' :: joinDot parts := by
  cases parts with
  | nil => exact absurd rfl h
  | cons y rest => rfl

theorem joinDot_splitDotAux (cs : List Char) : ∀ acc,
    joinDot (splitDotAux cs acc) = acc.reverse ++ cs := by
  induction cs with
  | nil => intro acc; simp [splitDotAux, joinDot]
  | cons c rest ih =>
      intro acc
      by_cases hc : c = '.'
      · simp only [splitDotAux, hc, if_true]
        rw [joinDot_cons _ (splitDotAux_ne_nil rest [])]
        rw [ih []]
        simp [hc]
      · simp only [splitDotAux, hc, if_false]
        rw [ih (c :: acc)]
        simp

theorem splitDotAux_no_dot (cs : List Char) : ∀ acc, (∀ c ∈ acc, c ≠ '.') →
    ∀ p ∈ splitDotAux cs acc, '.' ∉ p := by
  induction cs with
  | nil =>
      intro acc hacc p hp
      simp only [splitDotAux, List.mem_singleton] at hp
      subst hp
      intro hdot
      exact hacc '.' (List.mem_reverse.mp hdot) rfl
  | cons c rest ih =>
      intro acc hacc p hp
      by_cases hc : c = '.'
      · simp only [splitDotAux, hc, if_true, List.mem_cons] at hp
        rcases hp with rfl | hp2
        · intro hdot
          exact hacc '.' (List.mem_reverse.mp hdot) rfl
        · exact ih [] (by simp) p hp2
      · simp only [splitDotAux, hc, if_false] at hp
        refine ih (c :: acc) ?_ p hp
        intro x hx
        rcases List.mem_cons.mp hx with rfl | hx2
        · exact hc
        · exact hacc x hx2

theorem splitDotAux_of_no_dot {cs : List Char} (h : '.' ∉ cs) :
    ∀ acc, splitDotAux cs acc = [acc.reverse ++ cs] := by
  induction cs with
  | nil => intro acc; simp [splitDotAux]
  | cons c rest ih =>
      intro acc
      have hc : ¬ (c = '.') := fun hh => h (by simp [hh])
      simp only [splitDotAux, hc, if_false]
      rw [ih (fun hm => h (List.mem_cons_of_mem _ hm)) (c :: acc)]
      simp

/-- Inversion of `laddrClassify` on the accepted outcome. -/
theorem laddrClassify_accepted {handle title : String} {key : String × String} {d : Doc}
    (h : laddrClassify handle title = .accepted key d) :
    jsSplitDotLimit2 handle = [key.1, key.2] ∧ key.2 ≠ "" ∧
    (key.1 = "tech" ∨ key.1 = "topic") ∧
    d = [("handle", Value.str handle), ("title", Value.str title)] := by
  unfold laddrClassify at h
  split at h
  · next p tag heq =>
      by_cases h1 : tag = ""
      · rw [if_pos h1] at h
        exact LaddrOutcome.noConfusion h
      · rw [if_neg h1] at h
        by_cases h2 : p = "event"
        · rw [if_pos h2] at h
          exact LaddrOutcome.noConfusion h
        · rw [if_neg h2] at h
          by_cases h3 : p ≠ "tech" ∧ p ≠ "topic"
          · rw [if_pos h3] at h
            exact LaddrOutcome.noConfusion h
          · rw [if_neg h3] at h
            injection h with hk hd
            subst hk
            refine ⟨heq, h1, ?_, hd.symm⟩
            rcases not_and_or.mp h3 with hp | hp
            · exact Or.inl (not_not.mp hp)
            · exact Or.inr (not_not.mp hp)
  · next heq hne =>
      exact LaddrOutcome.noConfusion h

/-! ### Claim C2 -/

/-- C2 counterexample: JS `split('.', 2)` truncates to the first two
segments instead of keeping everything after the first dot, so the handle
"tech.a.b" maps to path "tech/a.toml", not the claimed "tech/a.b.toml". -/
theorem claim2_counterexample :
    (laddrWrites [("tech.a.b", "T")]).map Prod.fst = ["tech/a.toml"] ∧
    ("tech/a.toml" : String) ≠ "tech/a.b.toml" :=
  ⟨rfl, by decide⟩

/-- C2 amended: for every record the Handle-Prefixed adapter accepts, the
handle decomposes as `prefix ++ "." ++ tag ++ rest` where neither prefix
nor tag contains a dot and `rest` is empty or starts with a further dot
(i.e. tag is the segment between the first and second dot — `split('.', 2)`
discards the remainder); the record maps to path `{prefix}/{tag}.toml`, the
handle field is absent from the serialized document, and the title field is
preserved. -/
theorem claim2_handle_split :
    ∀ (handle title : String) (key : String × String) (d : Doc),
      laddrClassify handle title = .accepted key d →
      (∃ rest : List Char,
        (rest = [] ∨ ∃ r2, rest = '.' :: r2) ∧
        handle.data = key.1.data ++ '.' :: (key.2.data ++ rest) ∧
        '.' ∉ key.1.data ∧ '.' ∉ key.2.data) ∧
      laddrWrites [(handle, title)] =
        [(key.1 ++ "/" ++ key.2 ++ ".toml", serialize [("title", Value.str title)])] := by
  intro handle title key d hacc
  obtain ⟨hsplit, htag, hpre, hd⟩ := laddrClassify_accepted hacc
  constructor
  · -- structure of the handle from the split
    unfold jsSplitDotLimit2 jsSplitDot at hsplit
    have hjoin := joinDot_splitDotAux handle.data []
    have hnodot := splitDotAux_no_dot handle.data [] (by simp)
    cases hparts : splitDotAux handle.data [] with
    | nil => exact absurd hparts (splitDotAux_ne_nil handle.data [])
    | cons a rest1 =>
        cases rest1 with
        | nil =>
            rw [hparts] at hsplit
            simp at hsplit
        | cons b more =>
            rw [hparts] at hsplit hjoin hnodot
            simp only [List.map_cons, List.take_succ_cons, List.take_zero,
              List.take_cons, List.cons.injEq] at hsplit
            obtain ⟨hk1, hk2, _⟩ := hsplit
            have ha : key.1.data = a := by rw [← hk1]
            have hb : key.2.data = b := by rw [← hk2]
            rw [joinDot_cons _ (by simp)] at hjoin
            refine ⟨(match more with | [] => [] | _ :: _ => '.' :: joinDot more), ?_, ?_, ?_, ?_⟩
            · cases more with
              | nil => exact Or.inl rfl
              | cons z zs => exact Or.inr ⟨joinDot (z :: zs), rfl⟩
            · rw [ha, hb]
              cases more with
              | nil =>
                  simpa using hjoin.symm
              | cons z zs =>
                  rw [joinDot_cons _ (by simp)] at hjoin
                  simpa using hjoin.symm
            · rw [ha]
              exact hnodot a (by simp)
            · rw [hb]
              exact hnodot b (by simp)
  · -- the single-record pipeline output
    have hstep : laddrStep [] (handle, title) = [(key, d)] := by
      unfold laddrStep
      rw [hacc]
      rfl
    subst hd
    unfold laddrWrites laddrMap
    rw [List.foldl_cons, List.foldl_nil, hstep]
    rfl

/-- Witness for C2 (amended) at a concrete accepted record with two dots in
its handle. -/
theorem claim2_witness :
    laddrClassify "tech.a.b" "T" =
      LaddrOutcome.accepted ("tech", "a")
        [("handle", Value.str "tech.a.b"), ("title", Value.str "T")] ∧
    ((∃ rest : List Char,
        (rest = [] ∨ ∃ r2, rest = '.' :: r2) ∧
        ("tech.a.b" : String).data = ("tech" : String).data ++ '.' :: (("a" : String).data ++ rest) ∧
        '.' ∉ ("tech" : String).data ∧ '.' ∉ ("a" : String).data) ∧
      laddrWrites [("tech.a.b", "T")] =
        [("tech" ++ "/" ++ "a" ++ ".toml", serialize [("title", Value.str "T")])]) :=
  ⟨rfl, claim2_handle_split "tech.a.b" "T" ("tech", "a") _ rfl⟩

/-! ### Claim C6 -/

/-- C6 counterexample: the record with handle "event." has prefix "event"
(its `split('.', 2)` is ["event", ""]), yet it is dropped with the
unprefixed-tag warning — not silently — because the falsy-tag check runs
first. -/
theorem claim6_counterexample :
    jsSplitDotLimit2 "event." = ["event", ""] ∧
    laddrClassify "event." "T" = LaddrOutcome.skippedWarn ∧
    LaddrOutcome.skippedWarn ≠ LaddrOutcome.skippedSilent :=
  ⟨rfl, rfl, fun h => LaddrOutcome.noConfusion h⟩

/-- C6 amended: a record whose handle has no dot — or, more generally,
whose tag segment is empty — is dropped with a warning; among records with
a nonempty tag, prefix "event" is dropped silently and any prefix outside
accepted set tech/topic is dropped with a warning; in all such cases the
record produces no map entry and the scan continues. -/
theorem claim6_filtering :
    (∀ handle title : String, '.' ∉ handle.data →
      laddrClassify handle title = LaddrOutcome.skippedWarn) ∧
    (∀ handle title p : String, jsSplitDotLimit2 handle = [p, ""] →
      laddrClassify handle title = LaddrOutcome.skippedWarn) ∧
    (∀ handle title tag : String, jsSplitDotLimit2 handle = ["event", tag] → tag ≠ "" →
      laddrClassify handle title = LaddrOutcome.skippedSilent) ∧
    (∀ handle title p tag : String, jsSplitDotLimit2 handle = [p, tag] → tag ≠ "" →
      p ≠ "tech" → p ≠ "topic" → p ≠ "event" →
      laddrClassify handle title = LaddrOutcome.skippedWarn) ∧
    (∀ (handle title : String) (m : List ((String × String) × Doc)),
      (laddrClassify handle title = LaddrOutcome.skippedWarn ∨
        laddrClassify handle title = LaddrOutcome.skippedSilent) →
      laddrStep m (handle, title) = m) := by
  refine ⟨?_, ?_, ?_, ?_, ?_⟩
  · intro handle title hnd
    have hsplit : jsSplitDotLimit2 handle = [⟨handle.data⟩] := by
      unfold jsSplitDotLimit2 jsSplitDot
      rw [splitDotAux_of_no_dot hnd []]
      rfl
    unfold laddrClassify
    rw [hsplit]
  · intro handle title p hsp
    simp [laddrClassify, hsp]
  · intro handle title tag hsp htag
    simp [laddrClassify, hsp, htag]
  · intro handle title p tag hsp htag hp1 hp2 hp3
    simp [laddrClassify, hsp, htag, hp1, hp2, hp3]
  · intro handle title m h
    unfold laddrStep
    rcases h with h | h <;> rw [h]

/-- Witness for C6 (amended) at the three concrete dropped handles of the
spec and a concrete map state. -/
theorem claim6_witness :
    ('.' ∉ ("orphan" : String).data) ∧
    laddrClassify "orphan" "T" = LaddrOutcome.skippedWarn ∧
    jsSplitDotLimit2 "event.launch" = ["event", "launch"] ∧
    laddrClassify "event.launch" "T" = LaddrOutcome.skippedSilent ∧
    laddrClassify "misc.widget" "T" = LaddrOutcome.skippedWarn ∧
    laddrStep [] ("orphan", "T") = [] :=
  ⟨by decide,
    claim6_filtering.1 "orphan" "T" (by decide),
    rfl,
    claim6_filtering.2.2.1 "event.launch" "T" "launch" rfl (by decide),
    claim6_filtering.2.2.2.1 "misc.widget" "T" "misc" "widget" rfl (by decide) (by decide)
      (by decide) (by decide),
    claim6_filtering.2.2.2.2 "orphan" "T" []
      (Or.inl (claim6_filtering.1 "orphan" "T" (by decide)))⟩

/-! ### Claim C10 -/

theorem assocGet_some_mem {α β : Type} [DecidableEq α]
    {m : List (α × β)} {k : α} {v : β} (h : assocGet m k = some v) : (k, v) ∈ m := by
  induction m with
  | nil => exact absurd h (by simp [assocGet])
  | cons e rest ih =>
      by_cases he : e.1 = k
      · rw [assocGet, if_pos he] at h
        have hv := Option.some.inj h
        have : (k, v) = e := by
          rw [← he, ← hv]
        rw [this]
        exact List.mem_cons_self e rest
      · rw [assocGet, if_neg he] at h
        exact List.mem_cons_of_mem e (ih h)

/-- The in-memory map lookup equals the last accepted record with that
(prefix, tag) key: scanning is a left fold whose assignment replaces. -/
theorem laddrMap_get (records : List (String × String)) (key : String × String) :
    assocGet (laddrMap records) key = lastStored records key := by
  induction records using List.reverseRecOn with
  | nil => rfl
  | append_singleton rs r ih =>
      unfold laddrMap at ih ⊢
      rw [List.foldl_append, List.foldl_cons, List.foldl_nil]
      unfold lastStored at ih ⊢
      rw [List.reverse_append, List.reverse_singleton, List.singleton_append,
        List.filterMap_cons]
      unfold laddrStep
      cases hc : laddrClassify r.1 r.2 with
      | accepted k d =>
          by_cases hk : k = key
          · subst hk
            simp only [if_pos rfl, List.head?_cons]
            exact assocGet_set_self _ _ _
          · simp only [if_neg hk]
            rw [assocGet_set_ne _ _ (fun hh => hk hh.symm)]
            exact ih
      | skippedWarn => exact ih
      | skippedSilent => exact ih

/-- Invariant of the scan phase: map keys are duplicate-free and every key
carries an accepted prefix. -/
theorem laddrMap_invariant (records : List (String × String)) :
    ((laddrMap records).map Prod.fst).Nodup ∧
    (∀ e ∈ laddrMap records, e.1.1 = "tech" ∨ e.1.1 = "topic") := by
  suffices hgen : ∀ m : List ((String × String) × Doc),
      (m.map Prod.fst).Nodup → (∀ e ∈ m, e.1.1 = "tech" ∨ e.1.1 = "topic") →
      ((records.foldl laddrStep m).map Prod.fst).Nodup ∧
      (∀ e ∈ records.foldl laddrStep m, e.1.1 = "tech" ∨ e.1.1 = "topic") by
    exact hgen [] (by simp) (by simp)
  induction records with
  | nil => intro m h1 h2; exact ⟨h1, h2⟩
  | cons r rest ih =>
      intro m h1 h2
      rw [List.foldl_cons]
      apply ih
      · unfold laddrStep
        cases hc : laddrClassify r.1 r.2 with
        | accepted k d => exact assocSet_keys_nodup h1
        | skippedWarn => exact h1
        | skippedSilent => exact h1
      · unfold laddrStep
        cases hc : laddrClassify r.1 r.2 with
        | accepted k d =>
            exact assocSet_key_prop
              (fun x : String × String => x.1 = "tech" ∨ x.1 = "topic") h2
              (laddrClassify_accepted hc).2.2.1
        | skippedWarn => exact h2
        | skippedSilent => exact h2

/-- `laddrPath` is injective on keys whose prefix is tech or topic. -/
theorem laddrPath_inj {k1 k2 : String × String}
    (h1 : k1.1 = "tech" ∨ k1.1 = "topic") (h2 : k2.1 = "tech" ∨ k2.1 = "topic")
    (h : laddrPath k1 = laddrPath k2) : k1 = k2 := by
  obtain ⟨p1, t1⟩ := k1
  obtain ⟨p2, t2⟩ := k2
  simp only at h1 h2
  unfold laddrPath at h
  have hd := congrArg String.data h
  simp only [String.data_append] at hd
  rcases h1 with h1 | h1 <;> rcases h2 with h2 | h2 <;> subst h1 <;> subst h2
  · simp only [List.append_assoc, List.cons_append, List.nil_append,
      List.cons.injEq, true_and] at hd
    have := List.append_cancel_right hd
    rw [Prod.mk.injEq]
    exact ⟨rfl, String.ext this⟩
  · simp only [List.append_assoc, List.cons_append, List.nil_append,
      List.cons.injEq] at hd
    exact absurd hd.2.1 (by decide)
  · simp only [List.append_assoc, List.cons_append, List.nil_append,
      List.cons.injEq] at hd
    exact absurd hd.2.1 (by decide)
  · simp only [List.append_assoc, List.cons_append, List.nil_append,
      List.cons.injEq, true_and] at hd
    have := List.append_cancel_right hd
    rw [Prod.mk.injEq]
    exact ⟨rfl, String.ext this⟩

/-- C10: records accepted under the same (prefix, tag) replace one another
in the in-memory map before any write happens, so the map lookup is the
last accepted record for that key, each distinct path is written at most
once per run (paths of the writes are duplicate-free), and whatever the map
holds for a key is the unique write at that key's path. -/
theorem claim10_dedup_last_wins :
    (∀ records : List (String × String),
      ((laddrWrites records).map Prod.fst).Nodup) ∧
    (∀ (records : List (String × String)) (key : String × String),
      assocGet (laddrMap records) key = lastStored records key) ∧
    (∀ (records : List (String × String)) (key : String × String) (d : Doc),
      assocGet (laddrMap records) key = some d →
      (laddrPath key, serialize (assocSet d "handle" Value.absent)) ∈
        laddrWrites records) := by
  refine ⟨?_, laddrMap_get, ?_⟩
  · intro records
    obtain ⟨hnd, hpre⟩ := laddrMap_invariant records
    unfold laddrWrites
    rw [List.map_map]
    have hmapeq : (laddrMap records).map
        (Prod.fst ∘ fun e => (laddrPath e.1, serialize (assocSet e.2 "handle" Value.absent))) =
        ((laddrMap records).map Prod.fst).map laddrPath := by
      rw [List.map_map]
      rfl
    rw [hmapeq]
    refine hnd.map_on ?_
    intro x hx y hy hxy
    rw [List.mem_map] at hx hy
    obtain ⟨ex, hex, hx1⟩ := hx
    obtain ⟨ey, hey, hy1⟩ := hy
    exact laddrPath_inj (hx1 ▸ hpre ex hex) (hy1 ▸ hpre ey hey) hxy
  · intro records key d h
    exact List.mem_map.mpr ⟨(key, d), assocGet_some_mem h, rfl⟩

/-- Witness for C10 at a concrete run with a colliding (prefix, tag): the
second record replaces the first and only one write at `tech/x.toml`
appears. -/
theorem claim10_witness :
    assocGet (laddrMap [("tech.x", "T1"), ("tech.x", "T2"), ("topic.y", "Z")])
        ("tech", "x") =
      some [("handle", Value.str "tech.x"), ("title", Value.str "T2")] ∧
    lastStored [("tech.x", "T1"), ("tech.x", "T2"), ("topic.y", "Z")] ("tech", "x") =
      some [("handle", Value.str "tech.x"), ("title", Value.str "T2")] ∧
    (laddrPath ("tech", "x"),
      serialize (assocSet [("handle", Value.str "tech.x"), ("title", Value.str "T2")]
        "handle" Value.absent)) ∈
      laddrWrites [("tech.x", "T1"), ("tech.x", "T2"), ("topic.y", "Z")] ∧
    ((laddrWrites [("tech.x", "T1"), ("tech.x", "T2"), ("topic.y", "Z")]).map
      Prod.fst) = ["tech/x.toml", "topic/y.toml"] :=
  ⟨rfl, rfl,
    claim10_dedup_last_wins.2.2 [("tech.x", "T1"), ("tech.x", "T2"), ("topic.y", "Z")]
      ("tech", "x") [("handle", Value.str "tech.x"), ("title", Value.str "T2")] rfl,
    rfl⟩

end CivicTaxonomy
